import Mathlib

/-!
# AC_Lab3: 8-bit CRC engines

Shallow embedding of `AC_Lab3/AC_Lab3/AC_Lab3.cpp`.

* A message is a `std::vector<int>`: a `List Int`.
* A `uint8_t` is a `Nat`; every place where the C++ code stores an `int`
  expression into a `uint8_t` is an explicit `% 256`.
* A table is a `std::vector<uint8_t>`: a `List Nat`.  `table[i]` is unchecked
  in C++, so the table engines are fallible here: they return `none` as soon as
  one lookup falls outside the table.
-/

namespace AC_Lab3

/-- Conversion `int → uint8_t` (the low 8 bits of the two's complement value). -/
def toU8 (x : Int) : Nat := (x % 256).toNat

/-- Source lines 6-24.  `for (uint8_t byte : message)` converts each element to
`uint8_t` first; the inner loop runs 8 times. -/
def crc_slow (message : List Int) (polynomial : Nat) : Nat :=
  message.foldl
    (fun remainder x =>
      let byte := toU8 x
      let remainder := (remainder ^^^ byte) % 256
      (List.range 8).foldl
        (fun remainder _ =>
          if remainder &&& 0x80 ≠ 0 then ((remainder <<< 1) ^^^ polynomial) % 256
          else (remainder <<< 1) % 256)
        remainder)
    0

/-- Source lines 26-46.  The vector starts as 256 zeros and slot `i` is
overwritten for `i = 0 .. 255`. -/
def crc_table_init (polynomial : Nat) : List Nat :=
  (List.range 256).foldl
    (fun crc_table i =>
      let remainder := i % 256
      let remainder := (List.range 8).foldl
        (fun remainder _ =>
          if remainder &&& 0x80 ≠ 0 then ((remainder <<< 1) ^^^ polynomial) % 256
          else (remainder <<< 1) % 256)
        remainder
      crc_table.set i remainder)
    (List.replicate 256 0)

/-- Source lines 48-56.  `crc = table[crc ^ byte]`, lookup unchecked. -/
def crc_table (message : List Int) (table : List Nat) : Option Nat :=
  message.foldlM
    (fun crc x =>
      let byte := toU8 x
      table[crc ^^^ byte]?)
    0

/-- Source lines 58-77.  The message is walked from `rbegin()` to `rend()`, and
`remainder ^= *it` XORs the `int` element itself before the result is narrowed
to `uint8_t`. -/
def crc_reflect_slow (message : List Int) (polynomial : Nat) : Nat :=
  message.reverse.foldl
    (fun remainder x =>
      let remainder := toU8 (Int.xor (remainder : Int) x)
      (List.range 8).foldl
        (fun remainder _ =>
          if remainder &&& 1 ≠ 0 then ((remainder >>> 1) ^^^ polynomial) % 256
          else remainder >>> 1)
        remainder)
    0

/-- Source lines 79-99. -/
def crc_reflect_table_init (polynomial : Nat) : List Nat :=
  (List.range 256).foldl
    (fun crc_table i =>
      let remainder := i % 256
      let remainder := (List.range 8).foldl
        (fun remainder _ =>
          if remainder &&& 1 ≠ 0 then ((remainder >>> 1) ^^^ polynomial) % 256
          else remainder >>> 1)
        remainder
      crc_table.set i remainder)
    (List.replicate 256 0)

/-- Source lines 101-110.  `crc ^= *it; crc = table[crc];`, lookup unchecked. -/
def crc_reflect_table (message : List Int) (table : List Nat) : Option Nat :=
  message.reverse.foldlM
    (fun crc x =>
      let crc := toU8 (Int.xor (crc : Int) x)
      table[crc]?)
    0

/-- A well-formed `std::vector<uint8_t>`: every entry fits in 8 bits. -/
def TableWF (table : List Nat) : Prop := ∀ x ∈ table, x < 256

/-- The inner loop of `crc_slow` and `crc_table_init` started at `r`
(proof-side name for the shared loop text). -/
def normal_division (polynomial r : Nat) : Nat :=
  (List.range 8).foldl
    (fun remainder _ =>
      if remainder &&& 0x80 ≠ 0 then ((remainder <<< 1) ^^^ polynomial) % 256
      else (remainder <<< 1) % 256)
    r

/-- The inner loop of `crc_reflect_slow` and `crc_reflect_table_init` started
at `r` (proof-side name for the shared loop text). -/
def reflect_division (polynomial r : Nat) : Nat :=
  (List.range 8).foldl
    (fun remainder _ =>
      if remainder &&& 1 ≠ 0 then ((remainder >>> 1) ^^^ polynomial) % 256
      else remainder >>> 1)
    r

/-- Spec §4.2, one iteration in the spec's words: "if the low bit (0x1) is set,
shift right by 1 and exclusive-or with the polynomial; otherwise shift right by
1 only".  Written arithmetically, with no narrowing. -/
def reflected_step_spec (polynomial r : Nat) : Nat :=
  if r % 2 = 1 then (r / 2) ^^^ polynomial else r / 2

/-- The body of the inner loop of `crc_slow` and `crc_table_init` (source lines
14-20 and 34-41), named for the proofs about single iterations. -/
def normal_step (polynomial remainder : Nat) : Nat :=
  if remainder &&& 0x80 ≠ 0 then ((remainder <<< 1) ^^^ polynomial) % 256
  else (remainder <<< 1) % 256

/-- The body of the inner loop of `crc_reflect_slow` and `crc_reflect_table_init`
(source lines 66-73 and 87-94), named for the proofs about single iterations. -/
def reflect_step (polynomial remainder : Nat) : Nat :=
  if remainder &&& 1 ≠ 0 then ((remainder >>> 1) ^^^ polynomial) % 256
  else remainder >>> 1

/-- A byte message: every element of the `std::vector<int>` lies in 0..255. -/
def IsByteMessage (M : List Int) : Prop := ∀ x ∈ M, 0 ≤ x ∧ x < 256

/-- Element-wise XOR of two messages, as `int` XOR of the paired elements. -/
def xorMessages (M1 M2 : List Int) : List Int := List.zipWith Int.xor M1 M2

/-- Reversal of the 8 bits of a byte: bit `i` of `b` becomes bit `7 - i`.  This
is the `rev8` of the mirror property; the source has no such function. -/
def rev8 (b : Nat) : Nat :=
  (List.range 8).foldl (fun acc i => acc ||| (((b >>> i) &&& 1) <<< (7 - i))) 0

/-! ## Unfolding the engines -/

theorem crc_slow_eq (M : List Int) (P : Nat) :
    crc_slow M P = M.foldl (fun r x => normal_division P ((r ^^^ toU8 x) % 256)) 0 := rfl

theorem crc_reflect_slow_eq (M : List Int) (P : Nat) :
    crc_reflect_slow M P
      = M.reverse.foldl (fun r x => reflect_division P (toU8 (Int.xor (r : Int) x))) 0 := rfl

theorem crc_table_init_eq (P : Nat) :
    crc_table_init P
      = (List.range 256).foldl (fun t i => t.set i (normal_division P (i % 256)))
          (List.replicate 256 0) := rfl

theorem crc_reflect_table_init_eq (P : Nat) :
    crc_reflect_table_init P
      = (List.range 256).foldl (fun t i => t.set i (reflect_division P (i % 256)))
          (List.replicate 256 0) := rfl

/-! ## Bytes -/

theorem toU8_lt (x : Int) : toU8 x < 256 := by
  unfold toU8
  have h1 : 0 ≤ x % 256 := Int.emod_nonneg x (by decide)
  have h2 : x % 256 < 256 := Int.emod_lt_of_pos x (by decide)
  omega

theorem toU8_emod (x : Int) : toU8 (x % 256) = toU8 x := by
  unfold toU8
  rw [Int.emod_emod_of_dvd x (dvd_refl _)]

theorem toU8_natCast (n : Nat) : toU8 (n : Int) = n % 256 := by
  unfold toU8
  omega

theorem toU8_negSucc (n : Nat) : toU8 (Int.negSucc n) = 255 - n % 256 := by
  unfold toU8
  rw [Int.negSucc_emod n (by decide)]
  omega

theorem xor_lt_256 {a b : Nat} (ha : a < 256) (hb : b < 256) : a ^^^ b < 256 :=
  @Nat.xor_lt_two_pow a b 8 ha hb

theorem xor_mod_256 (a b : Nat) : (a ^^^ b) % 256 = (a % 256) ^^^ (b % 256) := by
  apply Nat.eq_of_testBit_eq
  intro i
  have h := Nat.testBit_mod_two_pow (a ^^^ b) 8 i
  have ha := Nat.testBit_mod_two_pow a 8 i
  have hb := Nat.testBit_mod_two_pow b 8 i
  norm_num at h ha hb
  rw [h, Nat.testBit_xor, ha, hb]
  by_cases hi : i < 8 <;> simp [hi]

theorem compl_xor_256 (r k : Nat) (hr : r < 256) :
    255 - (r ^^^ k) % 256 = r ^^^ (255 - k % 256) := by
  apply Nat.eq_of_testBit_eq
  intro i
  have h1 := @Nat.testBit_two_pow_sub_succ ((r ^^^ k) % 256) 8 (Nat.mod_lt _ (by decide)) i
  have h2 := @Nat.testBit_two_pow_sub_succ (k % 256) 8 (Nat.mod_lt _ (by decide)) i
  have h3 := Nat.testBit_mod_two_pow (r ^^^ k) 8 i
  have h4 := Nat.testBit_mod_two_pow k 8 i
  norm_num at h1 h2 h3 h4
  have e1 : 255 - (r ^^^ k) % 256 = 256 - ((r ^^^ k) % 256 + 1) := by omega
  have e2 : 255 - k % 256 = 256 - (k % 256 + 1) := by omega
  rw [e1, e2, h1, Nat.testBit_xor, h2, h3, h4]
  by_cases hi : i < 8
  · cases r.testBit i <;> cases k.testBit i <;> simp [hi]
  · have : r.testBit i = false := by
      apply Nat.testBit_lt_two_pow
      calc r < 2 ^ 8 := hr
        _ ≤ 2 ^ i := Nat.pow_le_pow_right (by decide) (by omega)
    simp [hi, this]

/-- Narrowing `remainder ^ *it` to `uint8_t` is the XOR of the low bytes. -/
theorem toU8_xor_mod (r : Nat) (x : Int) :
    toU8 (Int.xor (r : Int) x) = (r % 256) ^^^ toU8 x := by
  cases x with
  | ofNat n =>
    show toU8 (((r ^^^ n : Nat) : Int)) = (r % 256) ^^^ toU8 (n : Int)
    rw [toU8_natCast, toU8_natCast, xor_mod_256]
  | negSucc n =>
    show toU8 (Int.negSucc (r ^^^ n)) = (r % 256) ^^^ toU8 (Int.negSucc n)
    rw [toU8_negSucc, toU8_negSucc, ← compl_xor_256 (r % 256) n (Nat.mod_lt _ (by decide)),
      xor_mod_256 r n, xor_mod_256 (r % 256) n, Nat.mod_mod]

theorem toU8_xor (r : Nat) (x : Int) (hr : r < 256) :
    toU8 (Int.xor (r : Int) x) = r ^^^ toU8 x := by
  rw [toU8_xor_mod, Nat.mod_eq_of_lt hr]

theorem toU8_xor_emod (r : Nat) (x : Int) :
    toU8 (Int.xor (r : Int) (x % 256)) = toU8 (Int.xor (r : Int) x) := by
  rw [toU8_xor_mod, toU8_xor_mod, toU8_emod]

/-! ## The division loops stay in 8 bits -/

theorem foldl_invariant {α : Type} (p : Nat → Prop) (f : Nat → α → Nat)
    (hf : ∀ r a, p r → p (f r a)) (l : List α) (r : Nat) (hr : p r) : p (l.foldl f r) := by
  induction l generalizing r with
  | nil => exact hr
  | cons a l ih => exact ih (f r a) (hf r a hr)

theorem normal_division_lt (P r : Nat) (hr : r < 256) : normal_division P r < 256 := by
  unfold normal_division
  apply foldl_invariant (fun r => r < 256) _ _ _ r hr
  intro r a _
  show (if r &&& 0x80 ≠ 0 then ((r <<< 1) ^^^ P) % 256 else (r <<< 1) % 256) < 256
  split <;> exact Nat.mod_lt _ (by decide)

theorem reflect_division_lt (P r : Nat) (hr : r < 256) : reflect_division P r < 256 := by
  unfold reflect_division
  apply foldl_invariant (fun r => r < 256) _ _ _ r hr
  intro r a h
  show (if r &&& 1 ≠ 0 then ((r >>> 1) ^^^ P) % 256 else r >>> 1) < 256
  split
  · exact Nat.mod_lt _ (by decide)
  · rw [Nat.shiftRight_eq_div_pow]
    exact Nat.lt_of_le_of_lt (Nat.div_le_self r _) h

/-! ## Filling a table slot by slot -/

theorem fill_length (g : Nat → Nat) (n : Nat) (t0 : List Nat) :
    ((List.range n).foldl (fun t i => t.set i (g i)) t0).length = t0.length := by
  induction n with
  | zero => rfl
  | succ n ih => rw [List.range_succ, List.foldl_append]; simpa using ih

theorem fill_getElem? (g : Nat → Nat) (n : Nat) (t0 : List Nat) (i : Nat)
    (hn : n ≤ t0.length) (hi : i < n) :
    ((List.range n).foldl (fun t i => t.set i (g i)) t0)[i]? = some (g i) := by
  induction n with
  | zero => omega
  | succ n ih =>
    rw [List.range_succ, List.foldl_append]
    show (((List.range n).foldl (fun t i => t.set i (g i)) t0).set n (g n))[i]? = some (g i)
    by_cases h : i = n
    · subst h
      rw [List.getElem?_set_self]
      rw [fill_length]
      omega
    · rw [List.getElem?_set_ne (Ne.symm h)]
      exact ih (by omega) (by omega)

theorem crc_table_init_length (P : Nat) : (crc_table_init P).length = 256 := by
  rw [crc_table_init_eq, fill_length, List.length_replicate]

theorem crc_table_init_getElem? (P i : Nat) (hi : i < 256) :
    (crc_table_init P)[i]? = some (normal_division P i) := by
  rw [crc_table_init_eq,
    fill_getElem? (fun i => normal_division P (i % 256)) 256 _ i (by rw [List.length_replicate]) hi]
  simp only [Nat.mod_eq_of_lt hi]

theorem crc_reflect_table_init_length (P : Nat) : (crc_reflect_table_init P).length = 256 := by
  rw [crc_reflect_table_init_eq, fill_length, List.length_replicate]

theorem crc_reflect_table_init_getElem? (P i : Nat) (hi : i < 256) :
    (crc_reflect_table_init P)[i]? = some (reflect_division P i) := by
  rw [crc_reflect_table_init_eq,
    fill_getElem? (fun i => reflect_division P (i % 256)) 256 _ i (by rw [List.length_replicate]) hi]
  simp only [Nat.mod_eq_of_lt hi]

theorem crc_table_init_wf (P : Nat) : TableWF (crc_table_init P) := by
  intro x hx
  obtain ⟨i, hi, rfl⟩ := List.getElem_of_mem hx
  rw [crc_table_init_length] at hi
  have h := crc_table_init_getElem? P i hi
  rw [List.getElem?_eq_getElem (by rw [crc_table_init_length]; exact hi)] at h
  rw [Option.some.inj h]
  exact normal_division_lt P i hi

theorem crc_reflect_table_init_wf (P : Nat) : TableWF (crc_reflect_table_init P) := by
  intro x hx
  obtain ⟨i, hi, rfl⟩ := List.getElem_of_mem hx
  rw [crc_reflect_table_init_length] at hi
  have h := crc_reflect_table_init_getElem? P i hi
  rw [List.getElem?_eq_getElem (by rw [crc_reflect_table_init_length]; exact hi)] at h
  rw [Option.some.inj h]
  exact reflect_division_lt P i hi

/-! ## Running a fallible fold next to a total one -/

theorem foldlM_eq_foldl (f : Nat → Int → Option Nat) (h : Nat → Int → Nat)
    (hfh : ∀ r x, r < 256 → f r x = some (h r x) ∧ h r x < 256)
    (L : List Int) (r : Nat) (hr : r < 256) :
    L.foldlM f r = some (L.foldl h r) ∧ L.foldl h r < 256 := by
  induction L generalizing r with
  | nil => exact ⟨rfl, hr⟩
  | cons x L ih =>
    obtain ⟨h1, h2⟩ := hfh r x hr
    rw [List.foldlM_cons, h1, List.foldl_cons]
    exact ih (h r x) h2

theorem normal_fold_on_init (P : Nat) (L : List Int) (r : Nat) (hr : r < 256) :
    L.foldlM (fun (crc : Nat) (x : Int) => (crc_table_init P)[crc ^^^ toU8 x]?) r
      = some (L.foldl (fun r x => normal_division P ((r ^^^ toU8 x) % 256)) r)
    ∧ L.foldl (fun r x => normal_division P ((r ^^^ toU8 x) % 256)) r < 256 := by
  apply foldlM_eq_foldl _ _ _ L r hr
  intro r x hr
  have hidx : r ^^^ toU8 x < 256 := xor_lt_256 hr (toU8_lt x)
  refine ⟨?_, ?_⟩
  · show (crc_table_init P)[r ^^^ toU8 x]? = some (normal_division P ((r ^^^ toU8 x) % 256))
    rw [crc_table_init_getElem? P _ hidx, Nat.mod_eq_of_lt hidx]
  · exact normal_division_lt P _ (Nat.mod_lt _ (by decide))

theorem reflect_fold_on_init (P : Nat) (L : List Int) (r : Nat) (hr : r < 256) :
    L.foldlM (fun (crc : Nat) (x : Int) => (crc_reflect_table_init P)[toU8 (Int.xor (crc : Int) x)]?) r
      = some (L.foldl (fun r x => reflect_division P (toU8 (Int.xor (r : Int) x))) r)
    ∧ L.foldl (fun r x => reflect_division P (toU8 (Int.xor (r : Int) x))) r < 256 := by
  apply foldlM_eq_foldl _ _ _ L r hr
  intro r x _
  have hidx : toU8 (Int.xor (r : Int) x) < 256 := toU8_lt _
  refine ⟨?_, ?_⟩
  · show (crc_reflect_table_init P)[toU8 (Int.xor (r : Int) x)]?
      = some (reflect_division P (toU8 (Int.xor (r : Int) x)))
    rw [crc_reflect_table_init_getElem? P _ hidx]
  · exact reflect_division_lt P _ hidx

theorem crc_table_on_init (M : List Int) (P : Nat) :
    crc_table M (crc_table_init P) = some (crc_slow M P) :=
  (normal_fold_on_init P M 0 (by decide)).1

theorem crc_reflect_table_on_init (M : List Int) (P : Nat) :
    crc_reflect_table M (crc_reflect_table_init P) = some (crc_reflect_slow M P) :=
  (reflect_fold_on_init P M.reverse 0 (by decide)).1

theorem crc_slow_lt (M : List Int) (P : Nat) : crc_slow M P < 256 :=
  (normal_fold_on_init P M 0 (by decide)).2

theorem crc_reflect_slow_lt (M : List Int) (P : Nat) : crc_reflect_slow M P < 256 :=
  (reflect_fold_on_init P M.reverse 0 (by decide)).2

/-! ## Single-byte messages and the spec's reflected step -/

theorem crc_slow_singleton (P i : Nat) (hi : i < 256) :
    crc_slow [(i : Int)] P = normal_division P i := by
  rw [crc_slow_eq]
  show normal_division P ((0 ^^^ toU8 (i : Int)) % 256) = normal_division P i
  rw [toU8_natCast, Nat.zero_xor, Nat.mod_mod, Nat.mod_eq_of_lt hi]

theorem crc_reflect_slow_singleton (P i : Nat) (hi : i < 256) :
    crc_reflect_slow [(i : Int)] P = reflect_division P i := by
  rw [crc_reflect_slow_eq]
  show reflect_division P (toU8 (Int.xor ((0 : Nat) : Int) (i : Int))) = reflect_division P i
  rw [toU8_xor 0 _ (by decide), toU8_natCast, Nat.zero_xor, Nat.mod_eq_of_lt hi]

theorem foldl_range_eq_iterate (f : Nat → Nat) (n r : Nat) :
    (List.range n).foldl (fun r _ => f r) r = Nat.iterate f n r := by
  induction n with
  | zero => rfl
  | succ n ih =>
    rw [List.range_succ, List.foldl_append, Function.iterate_succ_apply', ← ih]
    rfl

theorem iterate_congr_on (p : Nat → Prop) (f g : Nat → Nat)
    (hfg : ∀ r, p r → f r = g r) (hg : ∀ r, p r → p (g r)) (n r : Nat) (hr : p r) :
    Nat.iterate f n r = Nat.iterate g n r ∧ p (Nat.iterate g n r) := by
  induction n with
  | zero => exact ⟨rfl, hr⟩
  | succ n ih =>
    rw [Function.iterate_succ_apply', Function.iterate_succ_apply', ih.1]
    exact ⟨hfg _ ih.2, hg _ ih.2⟩

theorem reflected_step_spec_lt (P r : Nat) (hP : P < 256) (hr : r < 256) :
    reflected_step_spec P r < 256 := by
  unfold reflected_step_spec
  split
  · exact xor_lt_256 (by omega) hP
  · omega

theorem reflect_division_eq_spec (P r : Nat) (hP : P < 256) (hr : r < 256) :
    reflect_division P r = Nat.iterate (reflected_step_spec P) 8 r := by
  unfold reflect_division
  rw [foldl_range_eq_iterate
    (fun r => if r &&& 1 ≠ 0 then ((r >>> 1) ^^^ P) % 256 else r >>> 1) 8 r]
  refine (iterate_congr_on (fun r => r < 256) _ _ ?_ ?_ 8 r hr).1
  · intro r hr
    have h1 : r >>> 1 = r / 2 := by rw [Nat.shiftRight_eq_div_pow]
    have h2 : (r / 2) ^^^ P < 256 := xor_lt_256 (by omega) hP
    show (if r &&& 1 ≠ 0 then ((r >>> 1) ^^^ P) % 256 else r >>> 1) = reflected_step_spec P r
    unfold reflected_step_spec
    rw [Nat.and_one_is_mod, h1, Nat.mod_eq_of_lt h2]
    by_cases h : r % 2 = 1
    · rw [if_pos h, if_pos (by omega)]
    · rw [if_neg h, if_neg (by omega)]
  · intro r hr
    exact reflected_step_spec_lt P r hP hr

theorem normal_division_zero (P : Nat) : normal_division P 0 = 0 := by
  have hstep : ∀ r, r = 0 →
      (if r &&& 0x80 ≠ 0 then ((r <<< 1) ^^^ P) % 256 else (r <<< 1) % 256) = 0 := by
    intro r hr
    subst hr
    rfl
  exact foldl_invariant (fun r => r = 0) _ (fun r _ hr => hstep r hr) (List.range 8) 0 rfl

/-! ## Narrowing the message first -/

theorem crc_slow_map_emod (M : List Int) (P : Nat) :
    crc_slow (M.map (fun x => x % 256)) P = crc_slow M P := by
  rw [crc_slow_eq, crc_slow_eq, List.foldl_map]
  simp only [toU8_emod]

theorem crc_reflect_slow_map_emod (M : List Int) (P : Nat) :
    crc_reflect_slow (M.map (fun x => x % 256)) P = crc_reflect_slow M P := by
  rw [crc_reflect_slow_eq, crc_reflect_slow_eq, ← List.map_reverse, List.foldl_map]
  simp only [toU8_xor_emod]

theorem crc_table_map_emod (M : List Int) (T : List Nat) :
    crc_table (M.map (fun x => x % 256)) T = crc_table M T := by
  unfold crc_table
  rw [List.foldlM_map]
  simp only [toU8_emod]

theorem crc_reflect_table_map_emod (M : List Int) (T : List Nat) :
    crc_reflect_table (M.map (fun x => x % 256)) T = crc_reflect_table M T := by
  unfold crc_reflect_table
  rw [← List.map_reverse, List.foldlM_map]
  simp only [toU8_xor_emod]

/-! ## Lookups in a full table never miss -/

theorem lookup_of_wf (T : List Nat) (hlen : T.length = 256) (hwf : TableWF T)
    (i : Nat) (hi : i < 256) : T[i]? = some (T.getD i 0) ∧ T.getD i 0 < 256 := by
  have hi' : i < T.length := by omega
  have e : T.getD i 0 = T[i] := by
    rw [List.getD_eq_getElem?_getD, List.getElem?_eq_getElem hi']; rfl
  rw [e]
  exact ⟨List.getElem?_eq_getElem hi', hwf _ (List.getElem_mem hi')⟩

theorem crc_table_total (T : List Nat) (hlen : T.length = 256) (hwf : TableWF T)
    (M : List Int) : ∃ v, crc_table M T = some v ∧ v < 256 := by
  have h := foldlM_eq_foldl (fun (crc : Nat) (x : Int) => T[crc ^^^ toU8 x]?)
    (fun crc x => T.getD (crc ^^^ toU8 x) 0)
    (fun r x hr => lookup_of_wf T hlen hwf _ (xor_lt_256 hr (toU8_lt x))) M 0 (by decide)
  exact ⟨_, h.1, h.2⟩

theorem crc_reflect_table_total (T : List Nat) (hlen : T.length = 256) (hwf : TableWF T)
    (M : List Int) : ∃ v, crc_reflect_table M T = some v ∧ v < 256 := by
  have h := foldlM_eq_foldl (fun (crc : Nat) (x : Int) => T[toU8 (Int.xor (crc : Int) x)]?)
    (fun crc x => T.getD (toU8 (Int.xor (crc : Int) x)) 0)
    (fun r x _ => lookup_of_wf T hlen hwf _ (toU8_lt _)) M.reverse 0 (by decide)
  exact ⟨_, h.1, h.2⟩

/-! ## The division loops as iterated steps -/

theorem normal_division_eq_iterate (P r : Nat) :
    normal_division P r = Nat.iterate (normal_step P) 8 r :=
  foldl_range_eq_iterate (normal_step P) 8 r

theorem reflect_division_eq_iterate (P r : Nat) :
    reflect_division P r = Nat.iterate (reflect_step P) 8 r :=
  foldl_range_eq_iterate (reflect_step P) 8 r

theorem normal_step_lt (P r : Nat) : normal_step P r < 256 := by
  unfold normal_step
  split <;> exact Nat.mod_lt _ (by decide)

theorem top_bit_cases (r : Nat) : r &&& 0x80 = 0 ∨ r &&& 0x80 = 0x80 := by
  have h : r &&& 2 ^ 7 = if r.testBit 7 then 2 ^ 7 else 0 := by
    apply Nat.eq_of_testBit_eq
    intro i
    rw [Nat.testBit_and, Nat.testBit_two_pow]
    by_cases hi : 7 = i
    · subst hi
      cases h7 : r.testBit 7
      · simp only [Bool.false_and, Bool.false_eq_true, if_false, Nat.zero_testBit]
      · simp only [Bool.true_and, if_true, Nat.testBit_two_pow]
    · have hd : decide (7 = i) = false := decide_eq_false hi
      cases h7 : r.testBit 7
      · simp only [hd, Bool.and_false, Bool.false_eq_true, if_false, Nat.zero_testBit]
      · simp only [hd, Bool.and_false, if_true, Nat.testBit_two_pow]
  cases h7 : r.testBit 7
  · left; rw [h7] at h; exact h
  · right; rw [h7] at h; exact h

theorem shiftLeft_one_xor (a b : Nat) : (a ^^^ b) <<< 1 = (a <<< 1) ^^^ (b <<< 1) := by
  apply Nat.eq_of_testBit_eq
  intro i
  simp only [Nat.testBit_shiftLeft, Nat.testBit_xor]
  by_cases hi : i ≥ 1 <;> simp [hi]

/-- One division step written with the shifted byte and the narrowed polynomial. -/
theorem normal_step_eq (P r : Nat) :
    normal_step P r
      = if r &&& 0x80 ≠ 0 then ((r <<< 1) % 256) ^^^ (P % 256) else (r <<< 1) % 256 := by
  unfold normal_step
  rw [xor_mod_256]

/-! ## The normal step is linear over XOR -/

theorem normal_step_xor (P a b : Nat) :
    normal_step P (a ^^^ b) = normal_step P a ^^^ normal_step P b := by
  rw [normal_step_eq, normal_step_eq, normal_step_eq, Nat.and_xor_distrib_right,
    shiftLeft_one_xor, xor_mod_256]
  generalize (a <<< 1) % 256 = sa
  generalize (b <<< 1) % 256 = sb
  generalize P % 256 = p
  rcases top_bit_cases a with ha | ha <;> rcases top_bit_cases b with hb | hb <;>
    rw [ha, hb]
  · simp
  · simp [Nat.xor_assoc]
  · simp [Nat.xor_assoc, Nat.xor_comm p sb]
  · have e : (sa ^^^ p) ^^^ (sb ^^^ p) = sa ^^^ sb := by
      rw [Nat.xor_comm sb p, Nat.xor_assoc, Nat.xor_cancel_left]
    simp [e]

theorem normal_step_zero (P : Nat) : normal_step P 0 = 0 := rfl

theorem iterate_normal_step_xor (P n a b : Nat) :
    Nat.iterate (normal_step P) n (a ^^^ b)
      = Nat.iterate (normal_step P) n a ^^^ Nat.iterate (normal_step P) n b := by
  induction n with
  | zero => rfl
  | succ n ih =>
    rw [Function.iterate_succ_apply', Function.iterate_succ_apply',
      Function.iterate_succ_apply', ih, normal_step_xor]

theorem normal_division_xor (P a b : Nat) :
    normal_division P (a ^^^ b) = normal_division P a ^^^ normal_division P b := by
  rw [normal_division_eq_iterate, normal_division_eq_iterate, normal_division_eq_iterate,
    iterate_normal_step_xor]

/-! ## With an odd polynomial the normal step loses nothing -/

set_option maxRecDepth 100000 in
theorem top_bit_iff : ∀ r, r < 256 → (r &&& 0x80 ≠ 0 ↔ 128 ≤ r) := by
  decide

theorem normal_step_eq_zero (P r : Nat) (hP : P % 2 = 1) (hr : r < 256)
    (h : normal_step P r = 0) : r = 0 := by
  rw [normal_step_eq] at h
  have hs : r <<< 1 = 2 * r := by rw [Nat.shiftLeft_eq]; omega
  rw [hs] at h
  by_cases ht : r &&& 0x80 ≠ 0
  · rw [if_pos ht] at h
    exfalso
    have hodd : ((2 * r % 256) ^^^ (P % 256)) % 2 = 1 := by
      rw [Nat.xor_mod_two_eq_one]
      omega
    rw [h] at hodd
    exact absurd hodd (by decide)
  · rw [if_neg ht] at h
    have hlt : ¬ 128 ≤ r := fun hge => ht ((top_bit_iff r hr).2 hge)
    omega

theorem iterate_normal_step_eq_zero (P : Nat) (hP : P % 2 = 1) (n r : Nat) (hr : r < 256)
    (h : Nat.iterate (normal_step P) n r = 0) : r = 0 := by
  induction n generalizing r with
  | zero => exact h
  | succ n ih =>
    rw [Function.iterate_succ_apply] at h
    exact normal_step_eq_zero P r hP hr (ih _ (normal_step_lt P r) h)

/-- With an odd polynomial the 8-step division is injective on bytes. -/
theorem normal_division_inj (P : Nat) (hP : P % 2 = 1) (a b : Nat) (ha : a < 256)
    (hb : b < 256) (h : normal_division P a = normal_division P b) : a = b := by
  have hx : normal_division P (a ^^^ b) = 0 := by
    rw [normal_division_xor, h, Nat.xor_self]
  rw [normal_division_eq_iterate] at hx
  exact Nat.xor_eq_zero.1 (iterate_normal_step_eq_zero P hP 8 _ (xor_lt_256 ha hb) hx)

/-! ## Folding the normal engine from any accumulator -/

theorem normal_fold_lt (P : Nat) (L : List Int) (r : Nat) (hr : r < 256) :
    L.foldl (fun r x => normal_division P ((r ^^^ toU8 x) % 256)) r < 256 :=
  (normal_fold_on_init P L r hr).2

theorem normal_fold_ne (P : Nat) (hP : P % 2 = 1) (L : List Int) (r1 r2 : Nat)
    (h1 : r1 < 256) (h2 : r2 < 256) (hne : r1 ≠ r2) :
    L.foldl (fun r x => normal_division P ((r ^^^ toU8 x) % 256)) r1
      ≠ L.foldl (fun r x => normal_division P ((r ^^^ toU8 x) % 256)) r2 := by
  induction L generalizing r1 r2 with
  | nil => exact hne
  | cons x L ih =>
    rw [List.foldl_cons, List.foldl_cons]
    apply ih _ _ (normal_division_lt P _ (Nat.mod_lt _ (by decide)))
      (normal_division_lt P _ (Nat.mod_lt _ (by decide)))
    intro heq
    have hx1 : r1 ^^^ toU8 x < 256 := xor_lt_256 h1 (toU8_lt x)
    have hx2 : r2 ^^^ toU8 x < 256 := xor_lt_256 h2 (toU8_lt x)
    rw [Nat.mod_eq_of_lt hx1, Nat.mod_eq_of_lt hx2] at heq
    exact hne (Nat.xor_left_inj.1 (normal_division_inj P hP _ _ hx1 hx2 heq))

theorem toU8_of_byte (x : Int) (h0 : 0 ≤ x) (h1 : x < 256) : ((toU8 x : Nat) : Int) = x := by
  unfold toU8
  omega

/-- Two byte messages of one length that differ at position `i` and nowhere
else are told apart by the normal fold, from any common accumulator. -/
theorem normal_fold_single_diff (P : Nat) (hP : P % 2 = 1) (M M' : List Int)
    (hM : IsByteMessage M) (hM' : IsByteMessage M') (hlen : M.length = M'.length)
    (i : Nat) (hdiff : M[i]? ≠ M'[i]?) (hsame : ∀ j, j ≠ i → M[j]? = M'[j]?)
    (r : Nat) (hr : r < 256) :
    M.foldl (fun r x => normal_division P ((r ^^^ toU8 x) % 256)) r
      ≠ M'.foldl (fun r x => normal_division P ((r ^^^ toU8 x) % 256)) r := by
  induction M generalizing M' i r with
  | nil =>
    cases M' with
    | nil => exact absurd rfl hdiff
    | cons y ys => simp at hlen
  | cons x xs ih =>
    cases M' with
    | nil => simp at hlen
    | cons y ys =>
      have hxs : IsByteMessage xs := fun z hz => hM z (List.mem_cons_of_mem _ hz)
      have hys : IsByteMessage ys := fun z hz => hM' z (List.mem_cons_of_mem _ hz)
      have hl : xs.length = ys.length := by simpa using hlen
      rw [List.foldl_cons, List.foldl_cons]
      cases i with
      | zero =>
        have hxy : x ≠ y := fun e => hdiff (by simp [e])
        have htl : xs = ys := by
          apply List.ext_getElem?
          intro n
          have := hsame (n + 1) (by omega)
          simpa using this
        rw [htl]
        have hbx := hM x (List.mem_cons_self _ _)
        have hby := hM' y (List.mem_cons_self _ _)
        have hxr : r ^^^ toU8 x < 256 := xor_lt_256 hr (toU8_lt x)
        have hyr : r ^^^ toU8 y < 256 := xor_lt_256 hr (toU8_lt y)
        apply normal_fold_ne P hP ys _ _
          (normal_division_lt P _ (Nat.mod_lt _ (by decide)))
          (normal_division_lt P _ (Nat.mod_lt _ (by decide)))
        intro heq
        rw [Nat.mod_eq_of_lt hxr, Nat.mod_eq_of_lt hyr] at heq
        have hu : toU8 x = toU8 y :=
          Nat.xor_right_inj.1 (normal_division_inj P hP _ _ hxr hyr heq)
        apply hxy
        rw [← toU8_of_byte x hbx.1 hbx.2, ← toU8_of_byte y hby.1 hby.2, hu]
      | succ i =>
        have hhead : x = y := by
          have := hsame 0 (by omega)
          simpa using this
        subst hhead
        apply ih ys hxs hys hl i
        · intro e
          apply hdiff
          simpa using e
        · intro j hj
          have := hsame (j + 1) (by omega)
          simpa using this
        · exact normal_division_lt P _ (Nat.mod_lt _ (by decide))

/-! ## XOR of messages -/

theorem compl_xor_left (m n : Nat) :
    255 - (m ^^^ n) % 256 = (255 - m % 256) ^^^ (n % 256) := by
  have h := compl_xor_256 (n % 256) m (Nat.mod_lt _ (by decide))
  rw [xor_mod_256, Nat.mod_mod, Nat.xor_comm (n % 256) (m % 256), ← xor_mod_256] at h
  rw [h, Nat.xor_comm]

/-- Narrowing an `int` XOR to `uint8_t` is the XOR of the narrowed operands. -/
theorem toU8_int_xor (x y : Int) : toU8 (Int.xor x y) = toU8 x ^^^ toU8 y := by
  cases x with
  | ofNat m =>
    show toU8 (Int.xor (m : Int) y) = toU8 (m : Int) ^^^ toU8 y
    rw [toU8_xor_mod, toU8_natCast]
  | negSucc m =>
    cases y with
    | ofNat n =>
      show toU8 (Int.negSucc (m ^^^ n)) = toU8 (Int.negSucc m) ^^^ toU8 (n : Int)
      rw [toU8_negSucc, toU8_negSucc, toU8_natCast, compl_xor_left]
    | negSucc n =>
      show toU8 (((m ^^^ n : Nat) : Int)) = toU8 (Int.negSucc m) ^^^ toU8 (Int.negSucc n)
      rw [toU8_natCast, toU8_negSucc, toU8_negSucc]
      have h1 := compl_xor_256 (255 - m % 256) n (by omega)
      have h2 := compl_xor_left m n
      rw [← h1, xor_mod_256 (255 - m % 256) n, Nat.mod_eq_of_lt (by omega : 255 - m % 256 < 256),
        ← h2]
      have : (m ^^^ n) % 256 < 256 := Nat.mod_lt _ (by decide)
      omega

theorem normal_fold_xor (P : Nat) (M1 M2 : List Int) (hlen : M1.length = M2.length)
    (r1 r2 : Nat) :
    (xorMessages M1 M2).foldl (fun r x => normal_division P ((r ^^^ toU8 x) % 256)) (r1 ^^^ r2)
      = M1.foldl (fun r x => normal_division P ((r ^^^ toU8 x) % 256)) r1
        ^^^ M2.foldl (fun r x => normal_division P ((r ^^^ toU8 x) % 256)) r2 := by
  induction M1 generalizing M2 r1 r2 with
  | nil =>
    cases M2 with
    | nil => rfl
    | cons y ys => simp at hlen
  | cons x xs ih =>
    cases M2 with
    | nil => simp at hlen
    | cons y ys =>
      have hl : xs.length = ys.length := by simpa using hlen
      show (xorMessages xs ys).foldl _
          (normal_division P (((r1 ^^^ r2) ^^^ toU8 (Int.xor x y)) % 256)) = _
      rw [List.foldl_cons, List.foldl_cons, ← ih ys hl, ← normal_division_xor, ← xor_mod_256,
        toU8_int_xor]
      congr 3
      rw [Nat.xor_assoc, Nat.xor_assoc, ← Nat.xor_assoc r2, Nat.xor_comm r2 (toU8 x),
        Nat.xor_assoc]

/-! ## Bit reversal of a byte -/

set_option maxRecDepth 1000000 in
theorem rev8_facts : ∀ r, r < 256 →
    rev8 r < 256 ∧ rev8 (rev8 r) = r
      ∧ (r &&& 1 ≠ 0 ↔ rev8 r &&& 0x80 ≠ 0)
      ∧ rev8 (r >>> 1) = (rev8 r <<< 1) % 256 := by
  decide

set_option maxRecDepth 1000000 in
theorem rev8_testBit : ∀ r, r < 256 → ∀ j, j < 8 → (rev8 r).testBit j = r.testBit (7 - j) := by
  decide

theorem testBit_byte_high (r j : Nat) (hr : r < 256) (hj : ¬ j < 8) : r.testBit j = false := by
  apply Nat.testBit_lt_two_pow
  calc r < 2 ^ 8 := hr
    _ ≤ 2 ^ j := Nat.pow_le_pow_right (by decide) (by omega)

theorem rev8_xor (a b : Nat) (ha : a < 256) (hb : b < 256) :
    rev8 (a ^^^ b) = rev8 a ^^^ rev8 b := by
  have hab : a ^^^ b < 256 := xor_lt_256 ha hb
  apply Nat.eq_of_testBit_eq
  intro j
  rw [Nat.testBit_xor]
  by_cases hj : j < 8
  · rw [rev8_testBit _ hab j hj, rev8_testBit a ha j hj, rev8_testBit b hb j hj,
      Nat.testBit_xor]
  · rw [testBit_byte_high _ j (rev8_facts _ hab).1 hj,
      testBit_byte_high _ j (rev8_facts a ha).1 hj,
      testBit_byte_high _ j (rev8_facts b hb).1 hj]
    rfl

/-! ## The reflected step is the mirror image of the normal step -/

theorem reflect_step_lt (P r : Nat) (hr : r < 256) : reflect_step P r < 256 := by
  unfold reflect_step
  split
  · exact Nat.mod_lt _ (by decide)
  · rw [Nat.shiftRight_eq_div_pow]
    exact Nat.lt_of_le_of_lt (Nat.div_le_self r _) hr

theorem rev8_reflect_step (P r : Nat) (hP : P < 256) (hr : r < 256) :
    rev8 (reflect_step P r) = normal_step (rev8 P) (rev8 r) := by
  obtain ⟨_, _, hbit, hshift⟩ := rev8_facts r hr
  have hsr : r >>> 1 < 256 := by
    rw [Nat.shiftRight_eq_div_pow]
    exact Nat.lt_of_le_of_lt (Nat.div_le_self r _) hr
  have hPr : rev8 P < 256 := (rev8_facts P hP).1
  rw [normal_step_eq]
  unfold reflect_step
  by_cases h : r &&& 1 ≠ 0
  · rw [if_pos h, if_pos (hbit.1 h), Nat.mod_eq_of_lt (xor_lt_256 hsr hP),
      rev8_xor _ _ hsr hP, hshift, Nat.mod_eq_of_lt hPr]
  · rw [if_neg h, if_neg (fun h' => h (hbit.2 h')), hshift]

theorem rev8_iterate_reflect_step (P : Nat) (hP : P < 256) (n r : Nat) (hr : r < 256) :
    rev8 (Nat.iterate (reflect_step P) n r) = Nat.iterate (normal_step (rev8 P)) n (rev8 r)
      ∧ Nat.iterate (reflect_step P) n r < 256 := by
  induction n with
  | zero => exact ⟨rfl, hr⟩
  | succ n ih =>
    rw [Function.iterate_succ_apply', Function.iterate_succ_apply', ← ih.1]
    exact ⟨rev8_reflect_step P _ hP ih.2, reflect_step_lt P _ ih.2⟩

theorem rev8_reflect_division (P r : Nat) (hP : P < 256) (hr : r < 256) :
    rev8 (reflect_division P r) = normal_division (rev8 P) (rev8 r) := by
  rw [reflect_division_eq_iterate, normal_division_eq_iterate]
  exact (rev8_iterate_reflect_step P hP 8 r hr).1

theorem toU8_eq_toNat (x : Int) (h0 : 0 ≤ x) (h1 : x < 256) : toU8 x = x.toNat := by
  unfold toU8
  omega

theorem rev8_reflect_fold (P : Nat) (hP : P < 256) (L : List Int) (hL : IsByteMessage L)
    (r : Nat) (hr : r < 256) :
    rev8 (L.foldl (fun r x => reflect_division P (toU8 (Int.xor (r : Int) x))) r)
      = (L.map (fun x => ((rev8 x.toNat : Nat) : Int))).foldl
          (fun r x => normal_division (rev8 P) ((r ^^^ toU8 x) % 256)) (rev8 r) := by
  induction L generalizing r with
  | nil => rfl
  | cons x L ih =>
    have hx := hL x (List.mem_cons_self _ _)
    have hxn : x.toNat < 256 := by omega
    have hidx : r ^^^ x.toNat < 256 := xor_lt_256 hr hxn
    rw [List.map_cons, List.foldl_cons, List.foldl_cons,
      ih (fun z hz => hL z (List.mem_cons_of_mem _ hz)) _ (reflect_division_lt P _ (toU8_lt _)),
      toU8_xor r x hr, toU8_eq_toNat x hx.1 hx.2, rev8_reflect_division P _ hP hidx,
      rev8_xor _ _ hr hxn, toU8_natCast, Nat.mod_eq_of_lt (rev8_facts _ hxn).1,
      ← rev8_xor _ _ hr hxn, Nat.mod_eq_of_lt (rev8_facts _ hidx).1]

theorem isByteMessage_reverse (M : List Int) (hM : IsByteMessage M) :
    IsByteMessage M.reverse :=
  fun x hx => hM x (List.mem_reverse.1 hx)

/-! ## Accumulator 0, zero bytes and the zero polynomial -/

theorem normal_fold_zeros (P n : Nat) :
    (List.replicate n (0 : Int)).foldl
      (fun r x => normal_division P ((r ^^^ toU8 x) % 256)) 0 = 0 := by
  induction n with
  | zero => rfl
  | succ n ih =>
    rw [List.replicate_succ, List.foldl_cons]
    show (List.replicate n (0 : Int)).foldl _ (normal_division P 0) = 0
    rw [normal_division_zero]
    exact ih

set_option maxRecDepth 1000000 in
theorem division_zero_polynomial : ∀ r, r < 256 →
    normal_division 0 r = 0 ∧ reflect_division 0 r = 0 := by
  decide

theorem fill_const (g : Nat → Nat) (c : Nat) (hg : ∀ i, i < 256 → g i = c) :
    (List.range 256).foldl (fun t i => t.set i (g i)) (List.replicate 256 0)
      = List.replicate 256 c := by
  apply List.ext_getElem?
  intro i
  by_cases hi : i < 256
  · rw [fill_getElem? g 256 _ i (by rw [List.length_replicate]) hi,
      List.getElem?_replicate_of_lt hi, hg i hi]
  · rw [List.getElem?_eq_none (by rw [fill_length, List.length_replicate]; omega),
      List.getElem?_eq_none (by rw [List.length_replicate]; omega)]

theorem crc_slow_zero_polynomial (M : List Int) : crc_slow M 0 = 0 := by
  rw [crc_slow_eq]
  apply foldl_invariant (fun r => r = 0) _ _ M 0 rfl
  intro r x _
  exact (division_zero_polynomial _ (Nat.mod_lt _ (by decide))).1

theorem crc_reflect_slow_zero_polynomial (M : List Int) : crc_reflect_slow M 0 = 0 := by
  rw [crc_reflect_slow_eq]
  apply foldl_invariant (fun r => r = 0) _ _ M.reverse 0 rfl
  intro r x _
  exact (division_zero_polynomial _ (toU8_lt _)).2

theorem crc_reflect_slow_cons (x : Int) (M : List Int) (P : Nat) :
    crc_reflect_slow (x :: M) P
      = reflect_division P (toU8 (Int.xor (crc_reflect_slow M P : Int) x)) := by
  simp only [crc_reflect_slow_eq, List.reverse_cons, List.foldl_append, List.foldl_cons,
    List.foldl_nil]

theorem crc_slow_append_cons (M1 M2 : List Int) (x : Int) (P : Nat) :
    crc_slow (M1 ++ x :: M2) P
      = M2.foldl (fun r x => normal_division P ((r ^^^ toU8 x) % 256))
          (normal_division P ((crc_slow M1 P ^^^ toU8 x) % 256)) := by
  simp only [crc_slow_eq, List.foldl_append, List.foldl_cons]

theorem crc_slow_cons (x : Int) (M : List Int) (P : Nat) :
    crc_slow (x :: M) P
      = M.foldl (fun r x => normal_division P ((r ^^^ toU8 x) % 256))
          (normal_division P (toU8 x)) := by
  simp only [crc_slow_eq, List.foldl_cons, Nat.zero_xor, Nat.mod_eq_of_lt (toU8_lt x)]

/-! ## When the normal table has no repeated entry -/

theorem normal_step_top (P : Nat) : normal_step P 128 = P % 256 := by
  rw [normal_step_eq, if_pos (by decide)]
  show 0 ^^^ P % 256 = P % 256
  rw [Nat.zero_xor]

theorem normal_step_half (P : Nat) (hP : P % 2 = 0) :
    normal_step P (P % 256 / 2) = P % 256 := by
  have hq : P % 256 / 2 < 256 := by omega
  have hnt : ¬ (P % 256 / 2 &&& 0x80 ≠ 0) := by
    rw [top_bit_iff _ hq]
    omega
  rw [normal_step_eq, if_neg hnt, Nat.shiftLeft_eq]
  omega

theorem normal_division_collision (P : Nat) (hP : P % 2 = 0) :
    normal_division P (P % 256 / 2) = normal_division P 128 := by
  have e : ∀ x, Nat.iterate (normal_step P) 8 x
      = Nat.iterate (normal_step P) 7 (normal_step P x) :=
    fun x => Function.iterate_succ_apply (normal_step P) 7 x
  rw [normal_division_eq_iterate, normal_division_eq_iterate, e, e, normal_step_top,
    normal_step_half P hP]

theorem crc_table_init_nodup_iff (P : Nat) : (crc_table_init P).Nodup ↔ P % 2 = 1 := by
  rw [List.nodup_iff_getElem?_ne_getElem?]
  constructor
  · intro h
    by_contra hP
    have hP0 : P % 2 = 0 := by omega
    have hq : P % 256 / 2 < 128 := by omega
    apply h (P % 256 / 2) 128 hq (by rw [crc_table_init_length]; decide)
    rw [crc_table_init_getElem? P _ (by omega), crc_table_init_getElem? P 128 (by decide),
      normal_division_collision P hP0]
  · intro hP i k hik hk
    rw [crc_table_init_length] at hk
    rw [crc_table_init_getElem? P i (by omega), crc_table_init_getElem? P k hk]
    intro heq
    have := normal_division_inj P hP i k (by omega) hk (Option.some.inj heq)
    omega

/-! ## Claims -/

/-- C1: for every polynomial `P` and every message `M` (the empty one included)
the table engine run on `crc_table_init P` returns exactly `crc_slow M P`. -/
theorem C1_crc_table_refines_crc_slow (M : List Int) (P : Nat) :
    crc_table M (crc_table_init P) = some (crc_slow M P) :=
  crc_table_on_init M P

/-- C2: for every polynomial `P` and every message `M` (the empty one included)
the reflected table engine run on `crc_reflect_table_init P` returns exactly
`crc_reflect_slow M P`. -/
theorem C2_crc_reflect_table_refines_crc_reflect_slow (M : List Int) (P : Nat) :
    crc_reflect_table M (crc_reflect_table_init P) = some (crc_reflect_slow M P) :=
  crc_reflect_table_on_init M P

/-- C3: on the empty message every engine returns 0, whatever the polynomial or
the table. -/
theorem C3_empty_message (P : Nat) (T : List Nat) :
    crc_slow [] P = 0 ∧ crc_reflect_slow [] P = 0
      ∧ crc_table [] T = some 0 ∧ crc_reflect_table [] T = some 0 :=
  ⟨rfl, rfl, rfl, rfl⟩

/-- C4: `crc_table_init P` has exactly 256 entries, and entry `i` (for `i` in
0..255) is `crc_slow` of the one-byte message `[i]`. -/
theorem C4_crc_table_init_entries (P i : Nat) (hi : i < 256) :
    (crc_table_init P).length = 256
      ∧ (crc_table_init P)[i]? = some (crc_slow [(i : Int)] P) := by
  rw [crc_slow_singleton P i hi]
  exact ⟨crc_table_init_length P, crc_table_init_getElem? P i hi⟩

theorem C4_crc_table_init_entries_witness :
    (0xA7 : Nat) < 256
      ∧ ((crc_table_init 0x91).length = 256
        ∧ (crc_table_init 0x91)[0xA7]? = some (crc_slow [((0xA7 : Nat) : Int)] 0x91)) :=
  ⟨by decide, C4_crc_table_init_entries 0x91 0xA7 (by decide)⟩

/-- C5: `crc_reflect_table_init P` has exactly 256 entries, and entry `i` (for
`i` in 0..255) is `crc_reflect_slow` of the one-byte message `[i]`, which is `i`
put 8 times through "low bit set: shift right by 1 and XOR with `P`; otherwise
shift right by 1 only". -/
theorem C5_crc_reflect_table_init_entries (P i : Nat) (hP : P < 256) (hi : i < 256) :
    (crc_reflect_table_init P).length = 256
      ∧ (crc_reflect_table_init P)[i]? = some (crc_reflect_slow [(i : Int)] P)
      ∧ crc_reflect_slow [(i : Int)] P = Nat.iterate (reflected_step_spec P) 8 i := by
  rw [crc_reflect_slow_singleton P i hi]
  exact ⟨crc_reflect_table_init_length P, crc_reflect_table_init_getElem? P i hi,
    reflect_division_eq_spec P i hP hi⟩

theorem C5_crc_reflect_table_init_entries_witness :
    (0x91 : Nat) < 256 ∧ (0xA7 : Nat) < 256
      ∧ ((crc_reflect_table_init 0x91).length = 256
        ∧ (crc_reflect_table_init 0x91)[0xA7]?
            = some (crc_reflect_slow [((0xA7 : Nat) : Int)] 0x91)
        ∧ crc_reflect_slow [((0xA7 : Nat) : Int)] 0x91
            = Nat.iterate (reflected_step_spec 0x91) 8 0xA7) :=
  ⟨by decide, by decide, C5_crc_reflect_table_init_entries 0x91 0xA7 (by decide) (by decide)⟩

/-- C6: entry 0 of `crc_table_init P` is 0 for every polynomial `P`. -/
theorem C6_crc_table_init_zero (P : Nat) : (crc_table_init P)[0]? = some 0 := by
  rw [crc_table_init_getElem? P 0 (by decide), normal_division_zero]

/-- C7: message elements outside 0..255 are narrowed to their low 8 bits: each
of the four engines gives the same result on `M` as on `M` with every element
reduced modulo 256, and with a well-formed 256-entry table the two table engines
return a value (no lookup misses). -/
theorem C7_elements_truncated (M : List Int) (P : Nat) (T : List Nat)
    (hlen : T.length = 256) (hwf : TableWF T) :
    crc_slow M P = crc_slow (M.map (fun x => x % 256)) P
      ∧ crc_reflect_slow M P = crc_reflect_slow (M.map (fun x => x % 256)) P
      ∧ crc_table M T = crc_table (M.map (fun x => x % 256)) T
      ∧ crc_reflect_table M T = crc_reflect_table (M.map (fun x => x % 256)) T
      ∧ (crc_table M T).isSome = true ∧ (crc_reflect_table M T).isSome = true := by
  obtain ⟨v, hv, _⟩ := crc_table_total T hlen hwf M
  obtain ⟨w, hw, _⟩ := crc_reflect_table_total T hlen hwf M
  refine ⟨(crc_slow_map_emod M P).symm, (crc_reflect_slow_map_emod M P).symm,
    (crc_table_map_emod M T).symm, (crc_reflect_table_map_emod M T).symm, ?_, ?_⟩
  · rw [hv]; rfl
  · rw [hw]; rfl

theorem C7_elements_truncated_witness :
    (crc_table_init 0x91).length = 256 ∧ TableWF (crc_table_init 0x91)
      ∧ (crc_slow [-1, 256, 0x1AB, -2147483648] 0x91
          = crc_slow ([-1, 256, 0x1AB, -2147483648].map (fun x => x % 256)) 0x91
        ∧ crc_reflect_slow [-1, 256, 0x1AB, -2147483648] 0x91
          = crc_reflect_slow ([-1, 256, 0x1AB, -2147483648].map (fun x => x % 256)) 0x91
        ∧ crc_table [-1, 256, 0x1AB, -2147483648] (crc_table_init 0x91)
          = crc_table ([-1, 256, 0x1AB, -2147483648].map (fun x => x % 256))
              (crc_table_init 0x91)
        ∧ crc_reflect_table [-1, 256, 0x1AB, -2147483648] (crc_table_init 0x91)
          = crc_reflect_table ([-1, 256, 0x1AB, -2147483648].map (fun x => x % 256))
              (crc_table_init 0x91)
        ∧ (crc_table [-1, 256, 0x1AB, -2147483648] (crc_table_init 0x91)).isSome = true
        ∧ (crc_reflect_table [-1, 256, 0x1AB, -2147483648]
              (crc_table_init 0x91)).isSome = true) :=
  ⟨crc_table_init_length 0x91, crc_table_init_wf 0x91,
    C7_elements_truncated [-1, 256, 0x1AB, -2147483648] 0x91 (crc_table_init 0x91)
      (crc_table_init_length 0x91) (crc_table_init_wf 0x91)⟩

/-- C8: with a well-formed table of exactly 256 entries every lookup of
`crc_table` and of `crc_reflect_table` is in bounds, so both engines return a
value, and that value is in 0..255; the tables built by `crc_table_init P` and
`crc_reflect_table_init P` are such tables, and on them the engines return a
value in 0..255. -/
theorem C8_table_engines_total (T : List Nat) (hlen : T.length = 256) (hwf : TableWF T)
    (M : List Int) (P : Nat) :
    (∃ v, crc_table M T = some v ∧ v < 256)
      ∧ (∃ v, crc_reflect_table M T = some v ∧ v < 256)
      ∧ ((crc_table_init P).length = 256 ∧ TableWF (crc_table_init P))
      ∧ ((crc_reflect_table_init P).length = 256 ∧ TableWF (crc_reflect_table_init P))
      ∧ (∃ v, crc_table M (crc_table_init P) = some v ∧ v < 256)
      ∧ (∃ v, crc_reflect_table M (crc_reflect_table_init P) = some v ∧ v < 256) :=
  ⟨crc_table_total T hlen hwf M, crc_reflect_table_total T hlen hwf M,
    ⟨crc_table_init_length P, crc_table_init_wf P⟩,
    ⟨crc_reflect_table_init_length P, crc_reflect_table_init_wf P⟩,
    ⟨_, crc_table_on_init M P, crc_slow_lt M P⟩,
    ⟨_, crc_reflect_table_on_init M P, crc_reflect_slow_lt M P⟩⟩

theorem C8_table_engines_total_witness :
    (crc_reflect_table_init 0x1D).length = 256 ∧ TableWF (crc_reflect_table_init 0x1D)
      ∧ ((∃ v, crc_table [0xFF, 0x00, 0xAB] (crc_reflect_table_init 0x1D) = some v ∧ v < 256)
        ∧ (∃ v, crc_reflect_table [0xFF, 0x00, 0xAB] (crc_reflect_table_init 0x1D) = some v
              ∧ v < 256)
        ∧ ((crc_table_init 0x91).length = 256 ∧ TableWF (crc_table_init 0x91))
        ∧ ((crc_reflect_table_init 0x91).length = 256
              ∧ TableWF (crc_reflect_table_init 0x91))
        ∧ (∃ v, crc_table [0xFF, 0x00, 0xAB] (crc_table_init 0x91) = some v ∧ v < 256)
        ∧ (∃ v, crc_reflect_table [0xFF, 0x00, 0xAB] (crc_reflect_table_init 0x91) = some v
              ∧ v < 256)) :=
  ⟨crc_reflect_table_init_length 0x1D, crc_reflect_table_init_wf 0x1D,
    C8_table_engines_total (crc_reflect_table_init 0x1D) (crc_reflect_table_init_length 0x1D)
      (crc_reflect_table_init_wf 0x1D) [0xFF, 0x00, 0xAB] 0x91⟩

/-- C9: the reflected engines depend on byte order: for polynomial 0x91 and the
message `[0x01, 0x00]`, reversing the message changes the result of
`crc_reflect_slow`, and of `crc_reflect_table` on `crc_reflect_table_init 0x91`. -/
theorem C9_reflected_order_sensitive :
    ∃ (P : Nat) (M : List Int), P < 256
      ∧ crc_reflect_slow M.reverse P ≠ crc_reflect_slow M P
      ∧ crc_reflect_table M.reverse (crc_reflect_table_init P)
          ≠ crc_reflect_table M (crc_reflect_table_init P) := by
  refine ⟨0x91, [0x01, 0x00], by decide, by decide, ?_⟩
  rw [crc_reflect_table_on_init, crc_reflect_table_on_init]
  decide

/-- C10: for polynomial 0x91 and the message `[0x00]`, `crc_slow` and `crc_table`
(on `crc_table_init 0x91`) return the same byte, and that byte is 0x00. -/
theorem C10_golden_zero_byte :
    crc_slow [0x00] 0x91 = 0x00
      ∧ crc_table [0x00] (crc_table_init 0x91) = some (crc_slow [0x00] 0x91)
      ∧ crc_table [0x00] (crc_table_init 0x91) = some 0x00 := by
  refine ⟨by decide, crc_table_on_init _ _, ?_⟩
  rw [crc_table_on_init]
  decide

/-- C11: `crc_reflect_slow` consumes the first byte last: for a byte `b` the
CRC of `b :: M` is the CRC of the one-byte message holding the accumulator left
by `M` XOR `b`, i.e. that XOR put through the 8-iteration reflected division. -/
theorem C11_crc_reflect_slow_first_byte_last (M : List Int) (P b : Nat) (hb : b < 256) :
    crc_reflect_slow ((b : Int) :: M) P
        = crc_reflect_slow [((crc_reflect_slow M P ^^^ b : Nat) : Int)] P
      ∧ crc_reflect_slow ((b : Int) :: M) P
        = reflect_division P (crc_reflect_slow M P ^^^ b) := by
  have hR : crc_reflect_slow M P < 256 := crc_reflect_slow_lt M P
  have h : crc_reflect_slow ((b : Int) :: M) P
      = reflect_division P (crc_reflect_slow M P ^^^ b) := by
    rw [crc_reflect_slow_cons, toU8_xor _ _ hR, toU8_natCast, Nat.mod_eq_of_lt hb]
  exact ⟨by rw [crc_reflect_slow_singleton P _ (xor_lt_256 hR hb)]; exact h, h⟩

theorem C11_crc_reflect_slow_first_byte_last_witness :
    (0x5A : Nat) < 256
      ∧ (crc_reflect_slow (((0x5A : Nat) : Int) :: [0xFF, 0x00, 0xAB]) 0x91
          = crc_reflect_slow
              [((crc_reflect_slow [0xFF, 0x00, 0xAB] 0x91 ^^^ 0x5A : Nat) : Int)] 0x91
        ∧ crc_reflect_slow (((0x5A : Nat) : Int) :: [0xFF, 0x00, 0xAB]) 0x91
          = reflect_division 0x91 (crc_reflect_slow [0xFF, 0x00, 0xAB] 0x91 ^^^ 0x5A)) :=
  ⟨by decide, C11_crc_reflect_slow_first_byte_last [0xFF, 0x00, 0xAB] 0x91 0x5A (by decide)⟩

/-- C12: `crc_slow` consumes bytes in forward order and can be chained: the CRC
of `M1 ++ (b :: M2)` is the CRC of `(crc_slow M1 P XOR b) :: M2`, and in
particular the CRC of `M1 ++ [b]` is the CRC of `[crc_slow M1 P XOR b]`. -/
theorem C12_crc_slow_chaining (M1 M2 : List Int) (P b : Nat) :
    crc_slow (M1 ++ (b : Int) :: M2) P
        = crc_slow (((crc_slow M1 P ^^^ b : Nat) : Int) :: M2) P
      ∧ crc_slow (M1 ++ [(b : Int)]) P
        = crc_slow [((crc_slow M1 P ^^^ b : Nat) : Int)] P := by
  have h : ∀ M2 : List Int, crc_slow (M1 ++ (b : Int) :: M2) P
      = crc_slow (((crc_slow M1 P ^^^ b : Nat) : Int) :: M2) P := by
    intro M2
    rw [crc_slow_append_cons, crc_slow_cons, toU8_natCast, toU8_natCast, xor_mod_256,
      Nat.mod_mod, ← xor_mod_256]
  exact ⟨h M2, h []⟩

/-- C13: single-byte error detection.  With an odd polynomial, two byte messages
of the same length that differ at position `i` and nowhere else have different
`crc_slow` values. -/
theorem C13_single_byte_error_detected (P : Nat) (hP : P % 2 = 1) (M M' : List Int)
    (hM : IsByteMessage M) (hM' : IsByteMessage M') (hlen : M.length = M'.length)
    (i : Nat) (hdiff : M[i]? ≠ M'[i]?) (hsame : ∀ j, j ≠ i → M[j]? = M'[j]?) :
    crc_slow M P ≠ crc_slow M' P := by
  rw [crc_slow_eq, crc_slow_eq]
  exact normal_fold_single_diff P hP M M' hM hM' hlen i hdiff hsame 0 (by decide)

theorem C13_single_byte_error_detected_witness :
    (0x91 : Nat) % 2 = 1
      ∧ IsByteMessage [0x12, 0x34, 0x56] ∧ IsByteMessage [0x12, 0x35, 0x56]
      ∧ ([0x12, 0x34, 0x56] : List Int).length = ([0x12, 0x35, 0x56] : List Int).length
      ∧ ([0x12, 0x34, 0x56] : List Int)[1]? ≠ ([0x12, 0x35, 0x56] : List Int)[1]?
      ∧ (∀ j, j ≠ 1 → ([0x12, 0x34, 0x56] : List Int)[j]? = ([0x12, 0x35, 0x56] : List Int)[j]?)
      ∧ crc_slow [0x12, 0x34, 0x56] 0x91 ≠ crc_slow [0x12, 0x35, 0x56] 0x91 :=
  have hM : IsByteMessage [0x12, 0x34, 0x56] := by
    intro x hx
    simp only [List.mem_cons, List.mem_singleton, List.not_mem_nil, or_false] at hx
    omega
  have hM' : IsByteMessage [0x12, 0x35, 0x56] := by
    intro x hx
    simp only [List.mem_cons, List.mem_singleton, List.not_mem_nil, or_false] at hx
    omega
  have hsame : ∀ j, j ≠ 1 →
      ([0x12, 0x34, 0x56] : List Int)[j]? = ([0x12, 0x35, 0x56] : List Int)[j]? := by
    intro j hj
    match j, hj with
    | 0, _ => rfl
    | 1, h => exact absurd rfl h
    | j + 2, _ => rfl
  ⟨by decide, hM, hM', rfl, by decide, hsame,
    C13_single_byte_error_detected 0x91 (by decide) [0x12, 0x34, 0x56] [0x12, 0x35, 0x56]
      hM hM' rfl 1 (by decide) hsame⟩

/-- C14: `crc_slow` is linear over XOR: for two messages of equal length the
CRC of their element-wise XOR is the XOR of their CRCs. -/
theorem C14_crc_slow_linear (P : Nat) (M1 M2 : List Int) (hlen : M1.length = M2.length) :
    crc_slow (xorMessages M1 M2) P = crc_slow M1 P ^^^ crc_slow M2 P := by
  rw [crc_slow_eq, crc_slow_eq, crc_slow_eq]
  exact normal_fold_xor P M1 M2 hlen 0 0

theorem C14_crc_slow_linear_witness :
    ([0xFF, 0x00, 0xAB] : List Int).length = ([0x12, 0x34, 0x56] : List Int).length
      ∧ crc_slow (xorMessages [0xFF, 0x00, 0xAB] [0x12, 0x34, 0x56]) 0x91
          = crc_slow [0xFF, 0x00, 0xAB] 0x91 ^^^ crc_slow [0x12, 0x34, 0x56] 0x91 :=
  ⟨rfl, C14_crc_slow_linear 0x91 [0xFF, 0x00, 0xAB] [0x12, 0x34, 0x56] rfl⟩

/-- C15: the reflected engine is the bit-mirror of the normal engine on the
reversed message: for an 8-bit polynomial `P` and a byte message `M`,
`crc_reflect_slow M P` is `rev8` of `crc_slow` run with polynomial `rev8 P` on
the reversed message with `rev8` applied to every byte. -/
theorem C15_reflected_is_mirror (P : Nat) (hP : P < 256) (M : List Int)
    (hM : IsByteMessage M) :
    crc_reflect_slow M P
      = rev8 (crc_slow (M.reverse.map (fun x => ((rev8 x.toNat : Nat) : Int))) (rev8 P)) := by
  have h := rev8_reflect_fold P hP M.reverse (isByteMessage_reverse M hM) 0 (by decide)
  rw [← crc_reflect_slow_eq] at h
  have h0 : rev8 0 = 0 := by decide
  rw [h0, ← crc_slow_eq] at h
  rw [← h, (rev8_facts _ (crc_reflect_slow_lt M P)).2.1]

theorem C15_reflected_is_mirror_witness :
    (0x91 : Nat) < 256 ∧ IsByteMessage [0xFF, 0x00, 0xAB]
      ∧ crc_reflect_slow [0xFF, 0x00, 0xAB] 0x91
          = rev8 (crc_slow
              (([0xFF, 0x00, 0xAB] : List Int).reverse.map
                (fun x => ((rev8 x.toNat : Nat) : Int))) (rev8 0x91)) :=
  have hM : IsByteMessage [0xFF, 0x00, 0xAB] := by
    intro x hx
    simp only [List.mem_cons, List.mem_singleton, List.not_mem_nil, or_false] at hx
    omega
  ⟨by decide, hM, C15_reflected_is_mirror 0x91 (by decide) [0xFF, 0x00, 0xAB] hM⟩

/-- C16: the 256 entries of `crc_table_init P` are pairwise distinct exactly
when the low bit of `P` is 1. -/
theorem C16_normal_table_permutation_iff_odd (P : Nat) :
    (crc_table_init P).Nodup ↔ P % 2 = 1 :=
  crc_table_init_nodup_iff P

/-- C17: leading zero bytes do not change `crc_slow`, and an all-zero message of
any length has CRC 0. -/
theorem C17_leading_zero_bytes (P n : Nat) (M : List Int) :
    crc_slow (List.replicate n 0 ++ M) P = crc_slow M P
      ∧ crc_slow (List.replicate n 0) P = 0 := by
  refine ⟨?_, ?_⟩
  · rw [crc_slow_eq, crc_slow_eq, List.foldl_append, normal_fold_zeros]
  · rw [crc_slow_eq, normal_fold_zeros]

/-- C18: with polynomial 0 both bitwise engines return 0 on every message and
both tables hold 256 zeros. -/
theorem C18_zero_polynomial (M : List Int) :
    crc_slow M 0 = 0 ∧ crc_reflect_slow M 0 = 0
      ∧ crc_table_init 0 = List.replicate 256 0
      ∧ crc_reflect_table_init 0 = List.replicate 256 0 := by
  refine ⟨crc_slow_zero_polynomial M, crc_reflect_slow_zero_polynomial M, ?_, ?_⟩
  · rw [crc_table_init_eq]
    exact fill_const _ 0
      (fun i hi => (division_zero_polynomial _ (Nat.mod_lt _ (by decide))).1)
  · rw [crc_reflect_table_init_eq]
    exact fill_const _ 0
      (fun i hi => (division_zero_polynomial _ (Nat.mod_lt _ (by decide))).2)

end AC_Lab3
